import Mathlib

/-!
Shallow embedding of the Simple Tasks Blocks plugin core (src/main.ts):
the category/task data model, the store mutations of `SimpleTasksBlocksPlugin`
and `TasksView`, the due-date sort algorithm, the status derivation used when
rendering a task, and the persistence/notification discipline of
`saveSettings`.  Machine-independent parts (the JavaScript array and string
primitives involved) are translated operation by operation; every definition
is executable.
-/

namespace STB

/-- Sort direction literal stored in `Category.lastSortOrder` (source values
are the strings asc and desc). -/
inductive SortOrder where
  | asc
  | desc
deriving DecidableEq, Repr

/-- Date format setting (source values YYYY-MM-DD, DD-MM-YYYY, Automatic). -/
inductive DateFormat where
  | ymd
  | dmy
  | automatic
deriving DecidableEq, Repr

/-- Task record (src/main.ts lines 5-10).  `dueDate` is an optional
YYYY-MM-DD string; `none` models the absent (undefined) field. -/
structure Task where
  id : String
  text : String
  completed : Bool
  dueDate : Option String
deriving DecidableEq, Repr

/-- Category record (src/main.ts lines 12-19).  Optional fields model the
optional TypeScript fields. -/
structure Category where
  id : String
  name : String
  tasks : List Task
  isCollapsed : Option Bool
  color : Option String
  lastSortOrder : Option SortOrder
deriving DecidableEq, Repr

/-- Whole persisted document (src/main.ts lines 21-25). -/
structure SimpleTasksBlocksSettings where
  categories : List Category
  confirmTaskDeletion : Bool
  dateFormat : DateFormat
deriving DecidableEq, Repr

/-- Default document (src/main.ts lines 27-31). -/
def DEFAULT_SETTINGS : SimpleTasksBlocksSettings :=
  { categories := [], confirmTaskDeletion := false, dateFormat := .automatic }

/-- Result of one store operation: the new document plus how many times
`saveSettings` ran.  In the source (lines 91-97) `saveSettings` performs one
`saveData` persistence write and then one `view.refresh()` change
notification, so saves and notifications are counted separately but always
move together. -/
structure OpResult where
  state : SimpleTasksBlocksSettings
  saves : Nat
  notifies : Nat
deriving DecidableEq, Repr

/-- Truthiness of an optional string in JavaScript: an absent (undefined)
value and the empty string are both falsy. -/
def strTruthy : Option String → Bool
  | none => false
  | some s => s != ""

/-- Models the JavaScript expression `v || dflt` on an optional string
(used for effective dates at line 665-666). -/
def jsOr (v : Option String) (dflt : String) : String :=
  match v with
  | none => dflt
  | some s => if s = "" then dflt else s

/-- Lexicographic comparison of character lists, mirroring the JavaScript
relational operator `<` on strings (code-unit lexicographic order; on the
ASCII date strings involved this coincides with comparison of Lean chars). -/
def lexLtB : List Char → List Char → Bool
  | [], [] => false
  | [], _ :: _ => true
  | _ :: _, [] => false
  | x :: xs, y :: ys => if x < y then true else if y < x then false else lexLtB xs ys

/-- Executable JavaScript string comparison `a < b`. -/
def strLtB (a b : String) : Bool := lexLtB a.data b.data

theorem lexLtB_iff_lex (xs ys : List Char) :
    lexLtB xs ys = true ↔ List.Lex (· < ·) xs ys := by
  induction xs generalizing ys with
  | nil =>
    cases ys with
    | nil => simp [lexLtB]
    | cons y ys => simp [lexLtB]; exact List.Lex.nil
  | cons x xs ih =>
    cases ys with
    | nil =>
      simp only [lexLtB]
      constructor
      · intro h; cases h
      · intro h; cases h
    | cons y ys =>
      simp only [lexLtB]
      by_cases hxy : x < y
      · simp only [hxy, if_true]
        constructor
        · intro _; exact List.Lex.rel hxy
        · intro _; trivial
      · by_cases hyx : y < x
        · simp only [hxy, hyx, if_true, if_false]
          constructor
          · intro h; cases h
          · intro h
            cases h with
            | cons h => exact absurd hyx (lt_irrefl x)
            | rel h => exact absurd h hxy
        · have hxye : x = y := le_antisymm (not_lt.mp hyx) (not_lt.mp hxy)
          subst hxye
          simp only [hxy, if_false, ih]
          constructor
          · intro h; exact List.Lex.cons h
          · intro h
            cases h with
            | cons h => exact h
            | rel h => exact absurd h (lt_irrefl x)

/-- The executable comparison agrees with the standard lexicographic order
on strings. -/
theorem strLtB_iff (a b : String) : strLtB a b = true ↔ a < b := by
  rw [strLtB, lexLtB_iff_lex, String.lt_iff_toList_lt]
  exact Iff.rfl

theorem strLtB_eq_false_iff (a b : String) : strLtB a b = false ↔ b ≤ a := by
  rw [← not_lt, ← strLtB_iff]
  cases h : strLtB a b <;> simp [h]

/-- Identifier generation `Date.now().toString()` (source lines 101, 110, 702);
the wall-clock millisecond value is passed in explicitly. -/
def genId (now : Nat) : String := Nat.repr now

/-- Updates the first element satisfying `p`, leaving all others alone.  This
models `Array.prototype.find` followed by in-place mutation of the found
object, as the store methods do. -/
def updateFirst (p : α → Bool) (f : α → α) : List α → List α
  | [] => []
  | x :: xs => if p x then f x :: xs else x :: updateFirst p f xs

/-- Opposite direction, from `currentOrder === asc ? desc : asc`
(source line 661). -/
def flipOrder : SortOrder → SortOrder
  | .asc => .desc
  | .desc => .asc

/-- Effective date of a task for sorting: `a.dueDate || todayStr`
(source lines 665-666). -/
def effDate (today : String) (t : Task) : String := jsOr t.dueDate today

/-- Comparator passed to `Array.prototype.sort` in `sortCategoryTasks`
(source lines 664-675), transcribed branch by branch. -/
def sortCmp (newOrder : SortOrder) (today : String) (a b : Task) : Int :=
  let dateA := effDate today a
  let dateB := effDate today b
  if dateA = dateB then 0
  else
    match newOrder with
    | .asc => if strLtB dateA dateB then -1 else 1
    | .desc => if strLtB dateB dateA then -1 else 1

/-- Ordering relation induced by the comparator: `a` may come no later than
`b` exactly when the comparator does not require `a` after `b`.  An
ECMAScript-conformant `Array.prototype.sort` (stable since ES2019) returns
the unique stable reordering sorted under this relation. -/
def taskLe (newOrder : SortOrder) (today : String) (a b : Task) : Prop :=
  sortCmp newOrder today a b ≤ 0

instance (newOrder : SortOrder) (today : String) :
    DecidableRel (taskLe newOrder today) := by
  intro a b
  unfold taskLe
  infer_instance

theorem taskLe_iff_asc (today : String) (a b : Task) :
    taskLe .asc today a b ↔ effDate today a ≤ effDate today b := by
  unfold taskLe sortCmp
  by_cases h : effDate today a = effDate today b
  · simp [h]
  · simp only [h, if_false]
    by_cases hlt : strLtB (effDate today a) (effDate today b) = true
    · simp only [hlt, if_true]
      have := (strLtB_iff _ _).mp hlt
      constructor
      · intro _; exact le_of_lt this
      · intro _; norm_num
    · have hf : strLtB (effDate today a) (effDate today b) = false := by
        cases hh : strLtB (effDate today a) (effDate today b)
        · rfl
        · exact absurd hh hlt
      simp only [hf, Bool.false_eq_true, if_false]
      have hba : effDate today b ≤ effDate today a := (strLtB_eq_false_iff _ _).mp hf
      constructor
      · intro hc; norm_num at hc
      · intro hab; exact absurd (le_antisymm hab hba) h

theorem taskLe_iff_desc (today : String) (a b : Task) :
    taskLe .desc today a b ↔ effDate today b ≤ effDate today a := by
  unfold taskLe sortCmp
  by_cases h : effDate today a = effDate today b
  · simp [h, le_of_eq h.symm]
  · simp only [h, if_false]
    by_cases hlt : strLtB (effDate today b) (effDate today a) = true
    · simp only [hlt, if_true]
      have := (strLtB_iff _ _).mp hlt
      constructor
      · intro _; exact le_of_lt this
      · intro _; norm_num
    · have hf : strLtB (effDate today b) (effDate today a) = false := by
        cases hh : strLtB (effDate today b) (effDate today a)
        · rfl
        · exact absurd hh hlt
      simp only [hf, Bool.false_eq_true, if_false]
      have hba : effDate today a ≤ effDate today b := (strLtB_eq_false_iff _ _).mp hf
      constructor
      · intro hc; norm_num at hc
      · intro hab; exact absurd (le_antisymm hba hab) h

theorem taskLe_iff (newOrder : SortOrder) (today : String) (a b : Task) :
    taskLe newOrder today a b ↔
      match newOrder with
      | .asc => effDate today a ≤ effDate today b
      | .desc => effDate today b ≤ effDate today a := by
  cases newOrder
  · exact taskLe_iff_asc today a b
  · exact taskLe_iff_desc today a b

instance (newOrder : SortOrder) (today : String) :
    IsTotal Task (taskLe newOrder today) := by
  constructor
  intro a b
  cases newOrder <;>
    simp only [taskLe_iff_asc, taskLe_iff_desc] <;>
    exact le_total _ _

instance (newOrder : SortOrder) (today : String) :
    IsTrans Task (taskLe newOrder today) := by
  constructor
  intro a b c
  cases newOrder <;> simp only [taskLe_iff_asc, taskLe_iff_desc]
  · exact fun h1 h2 => le_trans h1 h2
  · exact fun h1 h2 => le_trans h2 h1

/-- Stable sort of the task sequence under the comparator, the observable
behaviour of `category.tasks.sort(comparator)` at source lines 664-675
(`Array.prototype.sort` is required to be stable, and a stable sort for a
total preorder is unique, so insertion sort with the induced relation is an
exact model). -/
def sortTasks (newOrder : SortOrder) (today : String) (tasks : List Task) : List Task :=
  List.insertionSort (taskLe newOrder today) tasks

/-- Per-category effect of `sortCategoryTasks` on the found category
(source lines 656-677): flip the previous direction (defaulting to desc),
stable-sort the tasks, record the new direction. -/
def sortCat (today : String) (c : Category) : Category :=
  let newOrder := flipOrder (c.lastSortOrder.getD .desc)
  { c with tasks := sortTasks newOrder today c.tasks, lastSortOrder := some newOrder }

-- Store operations.  Each returns the new document together with the number
-- of saveData writes and of view.refresh notifications; saveSettings
-- (source lines 91-97) performs exactly one of each per call.

/-- Operation `SimpleTasksBlocksPlugin.addCategory` (source lines 99-119):
unconditionally appends a new category; when `firstTaskText` is truthy a
first task is added inside it; then saves once. -/
def addCategory (name firstTaskText : String) (dueDate : Option String)
    (now : Nat) (s : SimpleTasksBlocksSettings) : OpResult :=
  let base : Category :=
    { id := genId now, name := name, tasks := [], isCollapsed := some false,
      color := some "", lastSortOrder := none }
  let newCategory : Category :=
    if firstTaskText != "" then
      { base with tasks := [{ id := genId now ++ "-task", text := firstTaskText,
                              completed := false, dueDate := dueDate }] }
    else base
  { state := { s with categories := s.categories ++ [newCategory] },
    saves := 1, notifies := 1 }

/-- Operation `TasksView.deleteCategory` (source lines 693-696): filters the
category out by id and saves unconditionally, also when the id is absent. -/
def deleteCategory (id : String) (s : SimpleTasksBlocksSettings) : OpResult :=
  { state := { s with categories := s.categories.filter (fun c => c.id != id) },
    saves := 1, notifies := 1 }

/-- Operation `TasksView.addTask` (source lines 698-709): finds the category
by id; when found, appends the new task and saves once; when absent, does
nothing at all. -/
def addTask (categoryId text : String) (dueDate : Option String) (now : Nat)
    (s : SimpleTasksBlocksSettings) : OpResult :=
  if s.categories.any (fun c => c.id == categoryId) then
    let newTask : Task := { id := genId now, text := text, completed := false, dueDate := dueDate }
    let cats := updateFirst (fun c => c.id == categoryId) (fun c => { c with tasks := c.tasks ++ [newTask] }) s.categories
    { state := { s with categories := cats }, saves := 1, notifies := 1 }
  else { state := s, saves := 0, notifies := 0 }

/-- Operation `TasksView.toggleTask` (source lines 711-720): only when both
the category and the task are found is the completed flag assigned and the
document saved. -/
def toggleTask (categoryId taskId : String) (completed : Bool)
    (s : SimpleTasksBlocksSettings) : OpResult :=
  match s.categories.find? (fun c => c.id == categoryId) with
  | none => { state := s, saves := 0, notifies := 0 }
  | some c =>
    if c.tasks.any (fun t => t.id == taskId) then
      let setDone := fun (t : Task) => { t with completed := completed }
      let cats := updateFirst (fun c => c.id == categoryId) (fun c => { c with tasks := updateFirst (fun t => t.id == taskId) setDone c.tasks }) s.categories
      { state := { s with categories := cats }, saves := 1, notifies := 1 }
    else { state := s, saves := 0, notifies := 0 }

/-- Operation `TasksView.deleteTask` (source lines 722-728): when the
category is found its tasks are filtered by id and the document saved, even
when the task id was absent; an absent category does nothing. -/
def deleteTask (categoryId taskId : String) (s : SimpleTasksBlocksSettings) : OpResult :=
  if s.categories.any (fun c => c.id == categoryId) then
    let cats := updateFirst (fun c => c.id == categoryId) (fun c => { c with tasks := c.tasks.filter (fun t => t.id != taskId) }) s.categories
    { state := { s with categories := cats }, saves := 1, notifies := 1 }
  else { state := s, saves := 0, notifies := 0 }

/-- Operation `TasksView.sortCategoryTasks` (source lines 652-680): silently
returns when the id is absent; otherwise sorts the found category as
`sortCat` describes and saves once. -/
def sortCategoryTasks (categoryId today : String)
    (s : SimpleTasksBlocksSettings) : OpResult :=
  if s.categories.any (fun c => c.id == categoryId) then
    let cats := updateFirst (fun c => c.id == categoryId) (sortCat today) s.categories
    { state := { s with categories := cats }, saves := 1, notifies := 1 }
  else { state := s, saves := 0, notifies := 0 }

/-- JavaScript splice-based move on the raw category array
(source lines 682-687): `[moved] = categories.splice(fromIndex, 1)` followed
by `categories.splice(toIndex, 0, moved)`.  With `fromIndex` out of bounds
nothing is removed, `moved` is undefined (here `none`), and the second
splice still inserts it, so the result lives in `List (Option α)`. -/
def jsMove (l : List α) (fromIdx toIdx : Nat) : List (Option α) :=
  let moved := l.get? fromIdx
  let rest := l.eraseIdx fromIdx
  (rest.map some).insertIdx (min toIdx rest.length) moved

/-- Move of the category at `fromIdx` to position `toIdx` as the splice pair
behaves whenever `fromIdx` is in bounds (drag indices produced by the
rendering layer always are); proved below to agree with `jsMove` there. -/
def listMove (l : List α) (fromIdx toIdx : Nat) : List α :=
  match l.get? fromIdx with
  | none => l
  | some x => (l.eraseIdx fromIdx).insertIdx (min toIdx (l.eraseIdx fromIdx).length) x

/-- Operation `TasksView.reorderCategories` (source lines 682-687) on the
document, for the in-bounds indices the drag-and-drop handlers supply;
saves unconditionally. -/
def reorderCategories (fromIdx toIdx : Nat) (s : SimpleTasksBlocksSettings) : OpResult :=
  { state := { s with categories := listMove s.categories fromIdx toIdx },
    saves := 1, notifies := 1 }

/-- Operation `TasksView.toggleAllCategories` (source lines 730-736): if any
category is currently open (isCollapsed falsy) every category becomes
collapsed, else every category becomes open; saves unconditionally. -/
def toggleAllCategories (s : SimpleTasksBlocksSettings) : OpResult :=
  let anyOpen := s.categories.any (fun c => !(c.isCollapsed.getD false))
  let cats := s.categories.map (fun c => { c with isCollapsed := some anyOpen })
  { state := { s with categories := cats }, saves := 1, notifies := 1 }

/-- Operation `TasksView.cleanCompletedTasks` (source lines 738-743): every
category keeps exactly its non-completed tasks; one save at the end. -/
def cleanCompletedTasks (s : SimpleTasksBlocksSettings) : OpResult :=
  let cats := s.categories.map (fun c => { c with tasks := c.tasks.filter (fun t => !t.completed) })
  { state := { s with categories := cats }, saves := 1, notifies := 1 }

/-- Status badge derived when rendering a task (source lines 538-551): no
badge for a falsy dueDate; otherwise is-overdue when dueDate < today,
is-today when equal, and a plain badge (scheduled) when later.  The
derivation reads the task and never writes it. -/
inductive TaskStatus where
  | overdue
  | dueToday
  | scheduled
  | unscheduled
deriving DecidableEq, Repr

/-- Computes the derived display status from the optional dueDate and the
current date string (source lines 538-551). -/
def taskStatus (dueDate : Option String) (today : String) : TaskStatus :=
  match dueDate with
  | none => .unscheduled
  | some d =>
    if d = "" then .unscheduled
    else if strLtB d today then .overdue
    else if d = today then .dueToday
    else .scheduled

/-- Recognises a zero-padded YYYY-MM-DD date string. -/
def isYMD (s : String) : Bool :=
  match s.data with
  | [y1, y2, y3, y4, h1, m1, m2, h2, d1, d2] =>
    y1.isDigit && y2.isDigit && y3.isDigit && y4.isDigit && (h1 == '-') &&
      m1.isDigit && m2.isDigit && (h2 == '-') && d1.isDigit && d2.isDigit
  | _ => false

/-- Executable model of `String.prototype.trim`: drops leading and trailing
whitespace (the inputs at stake are ASCII). -/
def jsTrim (s : String) : String :=
  ⟨((s.data.dropWhile Char.isWhitespace).reverse.dropWhile Char.isWhitespace).reverse⟩

/-- Submit handler of the add-category modal (source lines 775-787): trims
both text fields, rejects the submission when either is empty, and otherwise
calls `addCategory` with the trimmed values and the optional date. -/
def modalSubmit (nameValue taskValue dateValue : String) (now : Nat)
    (s : SimpleTasksBlocksSettings) : OpResult :=
  let name := jsTrim nameValue
  let task := jsTrim taskValue
  if name = "" ∨ task = "" then { state := s, saves := 0, notifies := 0 }
  else addCategory name task (if dateValue = "" then none else some dateValue) now s

/-- Submit handler of the inline add-task input (source lines 441-448):
trims the text and calls `addTask` only when the result is nonempty. -/
def inlineSubmit (categoryId textValue dateValue : String) (now : Nat)
    (s : SimpleTasksBlocksSettings) : OpResult :=
  let text := jsTrim textValue
  if text = "" then { state := s, saves := 0, notifies := 0 }
  else addTask categoryId text (if dateValue = "" then none else some dateValue) now s

-- Helper lemmas on lists and on updateFirst.

theorem get?_append_cons (A : List α) (x : α) (R : List α) :
    (A ++ x :: R).get? A.length = some x := by
  induction A with
  | nil => rfl
  | cons a A ih => simpa using ih

theorem eraseIdx_append_cons (A : List α) (x : α) (R : List α) :
    (A ++ x :: R).eraseIdx A.length = A ++ R := by
  induction A with
  | nil => rfl
  | cons a A ih =>
    simp only [List.cons_append, List.length_cons, List.eraseIdx_cons_succ, ih]

theorem insertIdx_append_cons (A B : List α) (x : α) :
    List.insertIdx A.length x (A ++ B) = A ++ x :: B := by
  induction A with
  | nil => rfl
  | cons a A ih =>
    simp only [List.cons_append, List.length_cons, List.insertIdx_succ_cons, ih]

theorem map_insertIdx (g : α → β) (a : α) :
    ∀ (n : Nat) (l : List α),
      (List.insertIdx n a l).map g = List.insertIdx n (g a) (l.map g)
  | 0, l => by simp [List.insertIdx_zero]
  | n + 1, [] => by simp
  | n + 1, b :: l => by
    simp only [List.insertIdx_succ_cons, List.map_cons, map_insertIdx g a n l]

theorem updateFirst_of_any_eq_false {p : α → Bool} {l : List α}
    (h : l.any p = false) (f : α → α) : updateFirst p f l = l := by
  induction l with
  | nil => rfl
  | cons x xs ih =>
    simp only [List.any_cons, Bool.or_eq_false_iff] at h
    simp only [updateFirst, h.1, Bool.false_eq_true, if_false, List.cons.injEq, true_and]
    exact ih h.2

theorem map_updateFirst {p : α → Bool} {f : α → α} {g : α → β}
    (hg : ∀ x, g (f x) = g x) (l : List α) :
    (updateFirst p f l).map g = l.map g := by
  induction l with
  | nil => rfl
  | cons x xs ih =>
    by_cases h : p x
    · simp [updateFirst, h, hg]
    · simp [updateFirst, h, ih]

theorem find?_decomp {p : α → Bool} {l : List α} {c : α}
    (h : l.find? p = some c) :
    ∃ A B, l = A ++ c :: B ∧ (∀ a ∈ A, p a = false) ∧ p c = true ∧
      ∀ f : α → α, updateFirst p f l = A ++ f c :: B := by
  induction l with
  | nil => simp [List.find?] at h
  | cons x xs ih =>
    by_cases hx : p x
    · rw [List.find?_cons_of_pos _ hx] at h
      have hxc : x = c := Option.some_inj.mp h
      subst hxc
      refine ⟨[], xs, by simp, ?_, hx, ?_⟩
      · intro a ha; simp at ha
      · intro f; simp [updateFirst, hx]
    · have hx' : p x = false := by
        cases hh : p x
        · rfl
        · exact absurd hh hx
      rw [List.find?_cons_of_neg _ hx] at h
      obtain ⟨A, B, hl, hA, hc, hu⟩ := ih h
      refine ⟨x :: A, B, by simp [hl], ?_, hc, ?_⟩
      · intro a ha
        rcases List.mem_cons.mp ha with rfl | ha
        · exact hx'
        · exact hA a ha
      · intro f
        simp only [updateFirst, hx', Bool.false_eq_true, if_false, hu f,
          List.cons_append]

theorem any_iff_find?_isSome {p : α → Bool} {l : List α} :
    l.any p = true ↔ (l.find? p).isSome = true := by
  induction l with
  | nil => simp [List.find?]
  | cons x xs ih =>
    by_cases hx : p x
    · simp [List.find?, hx]
    · have hx' : p x = false := by
        cases hh : p x
        · rfl
        · exact absurd hh hx
      simp [List.find?, hx', ih]

theorem flatten_sublist_of_forall₂ {L L' : List (List α)}
    (h : List.Forall₂ List.Sublist L L') : L.flatten.Sublist L'.flatten := by
  induction h with
  | nil => simp
  | cons h _ ih => simpa using List.Sublist.append h ih

theorem flatten_sublist_of_sublist {L L' : List (List α)}
    (h : L.Sublist L') : L.flatten.Sublist L'.flatten := by
  induction h with
  | slnil => exact List.Sublist.refl _
  | cons y _ ih =>
    simp only [List.flatten_cons]
    exact ih.trans (List.sublist_append_right y _)
  | cons₂ y _ ih =>
    simp only [List.flatten_cons]
    exact ih.append_left y

-- Decomposition lemmas for the splice-based move.

theorem listMove_of_get?_some {l : List α} {f : Nat} {x : α}
    (h : l.get? f = some x) (t : Nat) :
    listMove l f t = List.insertIdx (min t (l.eraseIdx f).length) x (l.eraseIdx f) := by
  unfold listMove
  rw [h]

theorem listMove_append_right (A M B : List α) (x : α) :
    listMove (A ++ x :: (M ++ B)) A.length (A.length + M.length) = A ++ (M ++ x :: B) := by
  rw [listMove_of_get?_some (get?_append_cons A x (M ++ B)), eraseIdx_append_cons]
  have hmin : min (A.length + M.length) (A ++ (M ++ B)).length = A.length + M.length := by
    simp only [List.length_append]
    omega
  rw [hmin, ← List.append_assoc, ← List.length_append, insertIdx_append_cons, List.append_assoc]

theorem listMove_append_left (A M B : List α) (x : α) :
    listMove (A ++ (M ++ x :: B)) (A.length + M.length) A.length = A ++ x :: (M ++ B) := by
  have h1 : A ++ (M ++ x :: B) = (A ++ M) ++ x :: B := by rw [List.append_assoc]
  have h2 : A.length + M.length = (A ++ M).length := (List.length_append A M).symm
  rw [h1, h2, listMove_of_get?_some (get?_append_cons (A ++ M) x B), eraseIdx_append_cons,
    List.append_assoc]
  have hmin : min A.length (A ++ (M ++ B)).length = A.length := by
    simp only [List.length_append]
    omega
  rw [hmin, insertIdx_append_cons]

/-- Decomposition of a list at an in-bounds index. -/
theorem take_get_drop (l : List α) (i : Nat) (hi : i < l.length) :
    l = l.take i ++ l.get ⟨i, hi⟩ :: l.drop (i + 1) := by
  rw [List.get_eq_getElem, List.getElem_cons_drop, List.take_append_drop]

/-- Decomposition of a list around two in-bounds positions i < j, cut at the
element of index i. -/
theorem decomp_lt (l : List α) (i j : Nat) (hij : i < j) (hj : j < l.length) :
    ∃ (A M B : List α) (x : α),
      l = A ++ x :: (M ++ B) ∧ A.length = i ∧ M.length = j - i := by
  have hi : i < l.length := lt_trans hij hj
  refine ⟨l.take i, (l.drop (i + 1)).take (j - i), (l.drop (i + 1)).drop (j - i),
    l.get ⟨i, hi⟩, ?_, ?_, ?_⟩
  · rw [List.take_append_drop]
    exact take_get_drop l i hi
  · rw [List.length_take]
    omega
  · rw [List.length_take, List.length_drop]
    omega

/-- Decomposition of a list around two in-bounds positions j < i, cut at the
element of index i. -/
theorem decomp_gt (l : List α) (i j : Nat) (hij : j < i) (hi : i < l.length) :
    ∃ (A M B : List α) (x : α),
      l = A ++ (M ++ x :: B) ∧ A.length = j ∧ M.length = i - j := by
  refine ⟨l.take j, (l.drop j).take (i - j), l.drop (i + 1), l.get ⟨i, hi⟩, ?_, ?_, ?_⟩
  · conv_lhs => rw [← List.take_append_drop j l]
    congr 1
    conv_lhs => rw [← List.take_append_drop (i - j) (l.drop j)]
    congr 1
    rw [List.drop_drop]
    have hji : j + (i - j) = i := by omega
    rw [hji, List.get_eq_getElem]
    exact (List.getElem_cons_drop l i hi).symm
  · rw [List.length_take]
    omega
  · rw [List.length_take, List.length_drop]
    omega

theorem listMove_listMove (l : List α) (i j : Nat)
    (hi : i < l.length) (hj : j < l.length) (hij : i ≠ j) :
    listMove (listMove l i j) j i = l := by
  rcases Nat.lt_or_ge i j with h | h
  · obtain ⟨A, M, B, x, hd, hA, hM⟩ := decomp_lt l i j h hj
    have hi' : i = A.length := hA.symm
    have hj' : j = A.length + M.length := by omega
    rw [hd, hi', hj', listMove_append_right, listMove_append_left]
  · have h' : j < i := lt_of_le_of_ne h (Ne.symm hij)
    obtain ⟨A, M, B, x, hd, hA, hM⟩ := decomp_gt l i j h' hi
    have hj' : j = A.length := hA.symm
    have hi' : i = A.length + M.length := by omega
    rw [hd, hi', hj', listMove_append_left, listMove_append_right]

theorem listMove_self (l : List α) (i : Nat) (hi : i < l.length) :
    listMove l i i = l := by
  have hx := take_get_drop l i hi
  have hAlen : (l.take i).length = i := by
    rw [List.length_take]
    omega
  have h := listMove_append_right (l.take i) [] (l.drop (i + 1)) (l.get ⟨i, hi⟩)
  simp only [List.length_nil, Nat.add_zero, List.nil_append] at h
  rw [hAlen] at h
  conv_lhs => rw [hx]
  rw [h]
  exact hx.symm

theorem listMove_perm (l : List α) (i j : Nat) (hi : i < l.length) :
    (listMove l i j).Perm l := by
  rw [listMove_of_get?_some (List.get?_eq_get hi) j]
  refine (List.perm_insertIdx _ _ (min_le_right _ _)).trans ?_
  rw [List.eraseIdx_eq_take_drop_succ]
  conv_rhs => rw [take_get_drop l i hi]
  exact List.perm_middle.symm

theorem jsMove_eq_map_listMove (l : List α) (f t : Nat) (hf : f < l.length) :
    jsMove l f t = (listMove l f t).map some := by
  rw [listMove_of_get?_some (List.get?_eq_get hf) t]
  unfold jsMove
  rw [List.get?_eq_get hf]
  simp only [map_insertIdx, List.length_map]

theorem jsMove_oob (l : List α) (f t : Nat) (hf : l.length ≤ f) :
    jsMove l f t = List.insertIdx (min t l.length) none (l.map some) := by
  unfold jsMove
  rw [List.get?_eq_none.mpr hf, List.eraseIdx_eq_self.mpr hf]

theorem isYMD_ne_empty {s : String} (h : isYMD s = true) : s ≠ "" := by
  intro he
  subst he
  exact absurd h (by decide)

-- Claim C5.

/-- C5: for a task whose dueDate is a YYYY-MM-DD string, the derived display
status is overdue exactly when dueDate is lexicographically below today,
dueToday exactly when they are equal, and scheduled exactly when dueDate is
later; a task with no dueDate is unscheduled and gets no badge.  The
derivation is a pure function of the dueDate field and mutates nothing. -/
theorem taskStatus_spec (d today : String) (hd : isYMD d = true) :
    (taskStatus (some d) today = .overdue ↔ d < today) ∧
    (taskStatus (some d) today = .dueToday ↔ d = today) ∧
    (taskStatus (some d) today = .scheduled ↔ today < d) ∧
    taskStatus none today = .unscheduled := by
  have hne : d ≠ "" := isYMD_ne_empty hd
  refine ⟨?_, ?_, ?_, rfl⟩ <;> unfold taskStatus <;> simp only [hne, if_false]
  · by_cases hlt : strLtB d today = true
    · simp only [hlt, if_true]
      simp [(strLtB_iff d today).mp hlt]
    · have hf : strLtB d today = false := by
        cases hh : strLtB d today
        · rfl
        · exact absurd hh hlt
      have hle : today ≤ d := (strLtB_eq_false_iff d today).mp hf
      simp only [hf, Bool.false_eq_true, if_false]
      by_cases heq : d = today
      · simp [heq, lt_irrefl]
      · simp only [heq, if_false]
        constructor
        · intro hc; cases hc
        · intro hlt2; exact absurd (le_antisymm (le_of_lt hlt2) hle) heq
  · by_cases hlt : strLtB d today = true
    · have := (strLtB_iff d today).mp hlt
      simp only [hlt, if_true]
      constructor
      · intro hc; cases hc
      · intro heq; exact absurd heq (ne_of_lt this)
    · have hf : strLtB d today = false := by
        cases hh : strLtB d today
        · rfl
        · exact absurd hh hlt
      simp only [hf, Bool.false_eq_true, if_false]
      by_cases heq : d = today
      · simp [heq]
      · simp [heq]
  · by_cases hlt : strLtB d today = true
    · have hdt := (strLtB_iff d today).mp hlt
      simp only [hlt, if_true]
      constructor
      · intro hc; cases hc
      · intro h2; exact absurd (lt_trans hdt h2) (lt_irrefl d)
    · have hf : strLtB d today = false := by
        cases hh : strLtB d today
        · rfl
        · exact absurd hh hlt
      have hle : today ≤ d := (strLtB_eq_false_iff d today).mp hf
      simp only [hf, Bool.false_eq_true, if_false]
      by_cases heq : d = today
      · simp [heq, lt_irrefl]
      · simp only [heq, if_false]
        simp [lt_of_le_of_ne hle (Ne.symm heq)]

/-- Witness for C5 at the concrete dates 2024-01-01 and 2024-01-02. -/
theorem taskStatus_spec_witness :
    isYMD "2024-01-01" = true ∧
    ((taskStatus (some "2024-01-01") "2024-01-02" = .overdue ↔ "2024-01-01" < "2024-01-02") ∧
     (taskStatus (some "2024-01-01") "2024-01-02" = .dueToday ↔ "2024-01-01" = "2024-01-02") ∧
     (taskStatus (some "2024-01-01") "2024-01-02" = .scheduled ↔ "2024-01-02" < "2024-01-01") ∧
     taskStatus none "2024-01-02" = .unscheduled) :=
  ⟨by decide, taskStatus_spec "2024-01-01" "2024-01-02" (by decide)⟩

-- Concrete demonstration data reused by several witnesses.

/-- Completed task with a date. -/
def demoTask1 : Task :=
  { id := "t1", text := "alpha", completed := true, dueDate := some "2024-01-01" }

/-- Open task without a date. -/
def demoTask2 : Task :=
  { id := "t2", text := "beta", completed := false, dueDate := none }

/-- Open task with the same date as demoTask1. -/
def demoTask3 : Task :=
  { id := "t3", text := "gamma", completed := false, dueDate := some "2024-01-01" }

/-- Expanded category holding the three demo tasks. -/
def demoCatA : Category :=
  { id := "c1", name := "Work", tasks := [demoTask1, demoTask2, demoTask3],
    isCollapsed := some false, color := some "", lastSortOrder := none }

/-- Collapsed category holding one completed task. -/
def demoCatB : Category :=
  { id := "c2", name := "Home", tasks := [{ id := "t4", text := "delta", completed := true, dueDate := none }],
    isCollapsed := some true, color := some "", lastSortOrder := some .asc }

/-- Demonstration document with one expanded and one collapsed category. -/
def cleanDemoDoc : SimpleTasksBlocksSettings :=
  { categories := [demoCatA, demoCatB], confirmTaskDeletion := false, dateFormat := .automatic }

-- Claim C6.

/-- C6: cleanCompletedTasks keeps every category (same order, same identity
and fields), removes from each exactly the tasks whose completed flag is
true while preserving the relative order of the remaining ones, and performs
one single persistence write and one single change notification. -/
theorem cleanCompletedTasks_spec (s : SimpleTasksBlocksSettings) :
    (cleanCompletedTasks s).saves = 1 ∧
    (cleanCompletedTasks s).notifies = 1 ∧
    (cleanCompletedTasks s).state.confirmTaskDeletion = s.confirmTaskDeletion ∧
    (cleanCompletedTasks s).state.dateFormat = s.dateFormat ∧
    List.Forall₂
      (fun c c' =>
        c'.id = c.id ∧ c'.name = c.name ∧ c'.isCollapsed = c.isCollapsed ∧
        c'.color = c.color ∧ c'.lastSortOrder = c.lastSortOrder ∧
        c'.tasks.Sublist c.tasks ∧
        (∀ t ∈ c'.tasks, t.completed = false) ∧
        (∀ t ∈ c.tasks, t.completed = false → t ∈ c'.tasks))
      s.categories (cleanCompletedTasks s).state.categories := by
  refine ⟨rfl, rfl, rfl, rfl, ?_⟩
  unfold cleanCompletedTasks
  simp only [List.forall₂_map_right_iff]
  rw [List.forall₂_same]
  intro c _
  refine ⟨rfl, rfl, rfl, rfl, rfl, List.filter_sublist _, ?_, ?_⟩
  · intro t ht
    have := (List.mem_filter.mp ht).2
    simpa using this
  · intro t ht hnc
    exact List.mem_filter.mpr ⟨ht, by simpa using hnc⟩

/-- Witness for C6 on a concrete two-category document with mixed tasks. -/
theorem cleanCompletedTasks_spec_witness :
    ((cleanCompletedTasks cleanDemoDoc).saves = 1 ∧
     (cleanCompletedTasks cleanDemoDoc).notifies = 1 ∧
     (cleanCompletedTasks cleanDemoDoc).state.confirmTaskDeletion = cleanDemoDoc.confirmTaskDeletion ∧
     (cleanCompletedTasks cleanDemoDoc).state.dateFormat = cleanDemoDoc.dateFormat ∧
     List.Forall₂
       (fun c c' =>
         c'.id = c.id ∧ c'.name = c.name ∧ c'.isCollapsed = c.isCollapsed ∧
         c'.color = c.color ∧ c'.lastSortOrder = c.lastSortOrder ∧
         c'.tasks.Sublist c.tasks ∧
         (∀ t ∈ c'.tasks, t.completed = false) ∧
         (∀ t ∈ c.tasks, t.completed = false → t ∈ c'.tasks))
       cleanDemoDoc.categories (cleanCompletedTasks cleanDemoDoc).state.categories) :=
  cleanCompletedTasks_spec cleanDemoDoc

-- Claim C7.

/-- C7: toggleAllCategories computes a single target state: when at least one
category is expanded every category becomes collapsed, when none is expanded
every category becomes expanded; afterwards all categories carry the same
isCollapsed value (never a per-category independent toggle). -/
theorem toggleAllCategories_spec (s : SimpleTasksBlocksSettings) :
    (toggleAllCategories s).saves = 1 ∧
    (toggleAllCategories s).notifies = 1 ∧
    ((∃ c ∈ s.categories, c.isCollapsed.getD false = false) →
      ∀ c' ∈ (toggleAllCategories s).state.categories, c'.isCollapsed = some true) ∧
    ((∀ c ∈ s.categories, c.isCollapsed.getD false = true) →
      ∀ c' ∈ (toggleAllCategories s).state.categories, c'.isCollapsed = some false) ∧
    (∀ c₁ ∈ (toggleAllCategories s).state.categories,
      ∀ c₂ ∈ (toggleAllCategories s).state.categories, c₁.isCollapsed = c₂.isCollapsed) := by
  refine ⟨rfl, rfl, ?_, ?_, ?_⟩
  · intro hex c' hc'
    unfold toggleAllCategories at hc'
    simp only [List.mem_map] at hc'
    obtain ⟨c0, _, rfl⟩ := hc'
    have hany : s.categories.any (fun c => !(c.isCollapsed.getD false)) = true := by
      rw [List.any_eq_true]
      obtain ⟨c, hc, hcol⟩ := hex
      exact ⟨c, hc, by simp [hcol]⟩
    simp [hany]
  · intro hall c' hc'
    unfold toggleAllCategories at hc'
    simp only [List.mem_map] at hc'
    obtain ⟨c0, _, rfl⟩ := hc'
    have hany : s.categories.any (fun c => !(c.isCollapsed.getD false)) = false := by
      rw [Bool.eq_false_iff]
      intro hcontra
      rw [List.any_eq_true] at hcontra
      obtain ⟨c, hc, hcol⟩ := hcontra
      have := hall c hc
      simp [this] at hcol
    simp [hany]
  · intro c₁ hc₁ c₂ hc₂
    unfold toggleAllCategories at hc₁ hc₂
    simp only [List.mem_map] at hc₁ hc₂
    obtain ⟨a, _, rfl⟩ := hc₁
    obtain ⟨b, _, rfl⟩ := hc₂
    rfl

/-- Witness for C7 on a concrete document with one expanded and one
collapsed category: since a category is expanded, the call collapses all. -/
theorem toggleAllCategories_spec_witness :
    ∀ c' ∈ (toggleAllCategories cleanDemoDoc).state.categories,
      c'.isCollapsed = some true :=
  (toggleAllCategories_spec cleanDemoDoc).2.2.1
    ⟨demoCatA, by decide, by decide⟩

-- Claim C4.

/-- C4 counterexample: with one category, the out-of-bounds call
reorderCategory(1, 0) raises no IndexError and does not leave the sequence
intact; the splice pair inserts an undefined entry, so the raw category
array becomes [undefined, category].  The claimed bounds check does not
exist in the code. -/
theorem reorder_bounds_cex :
    jsMove [demoCatA] 1 0 = [none, some demoCatA] ∧
    jsMove [demoCatA] 1 0 ≠ [demoCatA].map some := by
  constructor
  · decide
  · decide

/-- C4 as amended: in bounds the operation is the standard single-element
move (remove at fromIndex, reinsert at toIndex) performed with one save and
one notification, and a no-op on the sequence when the indices are equal;
but no index is ever validated: an out-of-bounds fromIndex inserts an
undefined entry at position min(toIndex, n) instead of failing with an
IndexError, and an out-of-bounds toIndex is clamped to the end. -/
theorem reorderCategories_amended (s : SimpleTasksBlocksSettings) (f t : Nat) :
    ((reorderCategories f t s).saves = 1 ∧ (reorderCategories f t s).notifies = 1) ∧
    (reorderCategories f t s).state.categories = listMove s.categories f t ∧
    (f < s.categories.length →
      jsMove s.categories f t = (listMove s.categories f t).map some) ∧
    (f < s.categories.length →
      ((reorderCategories f t s).state.categories).Perm s.categories) ∧
    (f = t → f < s.categories.length → (reorderCategories f t s).state = s) ∧
    (s.categories.length ≤ f →
      jsMove s.categories f t = List.insertIdx (min t s.categories.length) none (s.categories.map some)) := by
  refine ⟨⟨rfl, rfl⟩, rfl, ?_, ?_, ?_, ?_⟩
  · intro hf
    exact jsMove_eq_map_listMove s.categories f t hf
  · intro hf
    exact listMove_perm s.categories f t hf
  · intro hft hf
    subst hft
    show { s with categories := listMove s.categories f f } = s
    rw [listMove_self s.categories f hf]
  · intro hf
    exact jsMove_oob s.categories f t hf

/-- Witness for the amended C4 on the concrete two-category document with
fromIndex 0, toIndex 0 (in bounds and equal). -/
theorem reorderCategories_amended_witness :
    jsMove cleanDemoDoc.categories 0 0 = (listMove cleanDemoDoc.categories 0 0).map some ∧
    (reorderCategories 0 0 cleanDemoDoc).state = cleanDemoDoc :=
  ⟨(reorderCategories_amended cleanDemoDoc 0 0).2.2.1 (by decide),
   (reorderCategories_amended cleanDemoDoc 0 0).2.2.2.2.1 rfl (by decide)⟩

-- Claim C8.

/-- C8: for in-bounds distinct indices i and j, reorderCategory(i, j)
followed by reorderCategory(j, i), with the indices reinterpreted after the
first move, restores the original category sequence. -/
theorem reorder_roundtrip (s : SimpleTasksBlocksSettings) (i j : Nat)
    (hi : i < s.categories.length) (hj : j < s.categories.length) (hij : i ≠ j) :
    (reorderCategories j i (reorderCategories i j s).state).state.categories = s.categories := by
  show listMove (listMove s.categories i j) j i = s.categories
  exact listMove_listMove s.categories i j hi hj hij

/-- Witness for C8 on the concrete two-category document with i = 0, j = 1. -/
theorem reorder_roundtrip_witness :
    (reorderCategories 1 0 (reorderCategories 0 1 cleanDemoDoc).state).state.categories =
      cleanDemoDoc.categories :=
  reorder_roundtrip cleanDemoDoc 0 1 (by decide) (by decide) (by decide)

-- Claim C2.

theorem find?_eq_none_of_any_eq_false {p : α → Bool} {l : List α}
    (h : l.any p = false) : l.find? p = none := by
  cases hf : l.find? p with
  | none => rfl
  | some c =>
    have : l.any p = true := any_iff_find?_isSome.mpr (by rw [hf]; rfl)
    rw [h] at this
    cases this

/-- C2 counterexample: deleteCategory called with an id absent from the
document changes nothing, yet still performs one persistence write and one
change notification, contradicting the claim that no-op operations trigger
neither. -/
theorem noop_persistence_cex :
    (deleteCategory "missing" DEFAULT_SETTINGS).state = DEFAULT_SETTINGS ∧
    ¬ ((deleteCategory "missing" DEFAULT_SETTINGS).saves = 0 ∧
       (deleteCategory "missing" DEFAULT_SETTINGS).notifies = 0) := by
  constructor
  · decide
  · decide

/-- C2 as amended: the operations that guard on lookup success (addTask,
toggleTask, sortCategoryTasks, deleteTask, all with an absent category id,
and toggleTask with an absent task id) are exact no-ops triggering no
persistence write and no notification, and when those operations do run
they persist and notify exactly once; but the unguarded operations
(addCategory, deleteCategory, reorderCategory, toggleAllCategories,
cleanCompletedTasks, and deleteTask inside an existing category with an
absent task id) persist and notify exactly once unconditionally, also when
they change nothing. -/
theorem persistence_discipline (s : SimpleTasksBlocksSettings)
    (cid tid name ft text today : String) (dd : Option String) (now : Nat)
    (done : Bool) (f t : Nat) :
    (s.categories.any (fun c => c.id == cid) = false →
      addTask cid text dd now s = { state := s, saves := 0, notifies := 0 } ∧
      toggleTask cid tid done s = { state := s, saves := 0, notifies := 0 } ∧
      deleteTask cid tid s = { state := s, saves := 0, notifies := 0 } ∧
      sortCategoryTasks cid today s = { state := s, saves := 0, notifies := 0 }) ∧
    (s.categories.any (fun c => c.id == cid) = true →
      ((addTask cid text dd now s).saves = 1 ∧ (addTask cid text dd now s).notifies = 1) ∧
      ((deleteTask cid tid s).saves = 1 ∧ (deleteTask cid tid s).notifies = 1) ∧
      ((sortCategoryTasks cid today s).saves = 1 ∧
        (sortCategoryTasks cid today s).notifies = 1)) ∧
    (∀ c, s.categories.find? (fun c => c.id == cid) = some c →
      (c.tasks.any (fun t => t.id == tid) = false →
        toggleTask cid tid done s = { state := s, saves := 0, notifies := 0 }) ∧
      (c.tasks.any (fun t => t.id == tid) = true →
        (toggleTask cid tid done s).saves = 1 ∧ (toggleTask cid tid done s).notifies = 1)) ∧
    ((addCategory name ft dd now s).saves = 1 ∧ (addCategory name ft dd now s).notifies = 1) ∧
    ((deleteCategory cid s).saves = 1 ∧ (deleteCategory cid s).notifies = 1) ∧
    ((reorderCategories f t s).saves = 1 ∧ (reorderCategories f t s).notifies = 1) ∧
    ((toggleAllCategories s).saves = 1 ∧ (toggleAllCategories s).notifies = 1) ∧
    ((cleanCompletedTasks s).saves = 1 ∧ (cleanCompletedTasks s).notifies = 1) := by
  refine ⟨?_, ?_, ?_, ⟨rfl, rfl⟩, ⟨rfl, rfl⟩, ⟨rfl, rfl⟩, ⟨rfl, rfl⟩, ⟨rfl, rfl⟩⟩
  · intro habs
    have hfind := find?_eq_none_of_any_eq_false habs
    refine ⟨?_, ?_, ?_, ?_⟩
    · unfold addTask
      rw [habs]
      rfl
    · unfold toggleTask
      rw [hfind]
    · unfold deleteTask
      rw [habs]
      rfl
    · unfold sortCategoryTasks
      rw [habs]
      rfl
  · intro hpres
    refine ⟨⟨?_, ?_⟩, ⟨?_, ?_⟩, ⟨?_, ?_⟩⟩ <;>
      first
        | (unfold addTask; rw [hpres]; rfl)
        | (unfold deleteTask; rw [hpres]; rfl)
        | (unfold sortCategoryTasks; rw [hpres]; rfl)
  · intro c hc
    constructor
    · intro htabs
      unfold toggleTask
      rw [hc]
      simp only [htabs, Bool.false_eq_true, if_false]
    · intro htpres
      unfold toggleTask
      rw [hc]
      simp only [htpres, if_true]
      constructor <;> trivial

/-- Witness for the amended C2 on the demonstration document: a present
category id makes addTask persist once, an absent one makes it an exact
no-op without persistence. -/
theorem persistence_discipline_witness :
    ((addTask "c1" "x" none 9 cleanDemoDoc).saves = 1 ∧
     (addTask "c1" "x" none 9 cleanDemoDoc).notifies = 1) ∧
    addTask "zz" "x" none 9 cleanDemoDoc =
      { state := cleanDemoDoc, saves := 0, notifies := 0 } :=
  ⟨((persistence_discipline cleanDemoDoc "c1" "t1" "n" "f" "x" "2024-01-02" none 9 true 0 0).2.1
      (by decide)).1,
   ((persistence_discipline cleanDemoDoc "zz" "t1" "n" "f" "x" "2024-01-02" none 9 true 0 0).1
      (by decide)).1⟩

-- Claim C3.

theorem mem_updateFirst {p : α → Bool} {f : α → α} {l : List α} {x : α}
    (h : x ∈ updateFirst p f l) : x ∈ l ∨ ∃ y ∈ l, x = f y := by
  induction l with
  | nil => cases h
  | cons a as ih =>
    by_cases ha : p a
    · simp only [updateFirst, ha, if_true] at h
      rcases List.mem_cons.mp h with rfl | h
      · exact Or.inr ⟨a, List.mem_cons_self a as, rfl⟩
      · exact Or.inl (List.mem_cons_of_mem a h)
    · have ha' : p a = false := by
        cases hh : p a
        · rfl
        · exact absurd hh ha
      simp only [updateFirst, ha', Bool.false_eq_true, if_false] at h
      rcases List.mem_cons.mp h with rfl | h
      · exact Or.inl (List.mem_cons_self x as)
      · rcases ih h with h | ⟨y, hy, rfl⟩
        · exact Or.inl (List.mem_cons_of_mem a h)
        · exact Or.inr ⟨y, List.mem_cons_of_mem a hy, rfl⟩

/-- Document obtained by calling the store-level addCategory with an empty
name: the category is inserted anyway. -/
def emptyNameState : SimpleTasksBlocksSettings :=
  (addCategory "" "" none 0 DEFAULT_SETTINGS).state

/-- C3 counterexample: the store operations themselves perform no
validation.  addCategory with an empty name does not fail and does not
leave the document unchanged: it inserts a category named ""; addTask with
empty text then inserts a task whose text is "", so a task sequence can
contain a task with empty text.  (No ValidationError value exists anywhere
in the code; rejection of empty input happens only in the modal and inline
input handlers of the presentation layer.) -/
theorem validation_cex :
    emptyNameState ≠ DEFAULT_SETTINGS ∧
    emptyNameState.categories.map Category.name = [""] ∧
    (addTask "0" "" none 1 emptyNameState).saves = 1 ∧
    ∃ c ∈ (addTask "0" "" none 1 emptyNameState).state.categories,
      ∃ t ∈ c.tasks, t.text = "" := by
  refine ⟨by decide, by decide, by decide, ?_⟩
  decide

/-- C3 as amended: emptiness of required text fields is rejected at the user
input boundary, not in the store: the add-category modal submits nothing
when the trimmed name or trimmed first-task text is empty, and the inline
task input submits nothing when the trimmed text is empty (in both cases the
document is unchanged and nothing is persisted); consequently these entry
points preserve the invariant that no task anywhere has empty text.  The
store operations themselves accept empty strings (see the counterexample). -/
theorem validation_amended (nameValue taskValue dateValue cid textValue : String)
    (now : Nat) (s : SimpleTasksBlocksSettings) :
    (jsTrim nameValue = "" ∨ jsTrim taskValue = "" →
      modalSubmit nameValue taskValue dateValue now s =
        { state := s, saves := 0, notifies := 0 }) ∧
    (jsTrim textValue = "" →
      inlineSubmit cid textValue dateValue now s =
        { state := s, saves := 0, notifies := 0 }) ∧
    ((∀ c ∈ s.categories, ∀ t ∈ c.tasks, t.text ≠ "") →
      (∀ c ∈ (modalSubmit nameValue taskValue dateValue now s).state.categories,
        ∀ t ∈ c.tasks, t.text ≠ "") ∧
      (∀ c ∈ (inlineSubmit cid textValue dateValue now s).state.categories,
        ∀ t ∈ c.tasks, t.text ≠ "")) := by
  refine ⟨?_, ?_, ?_⟩
  · intro h
    unfold modalSubmit
    rw [if_pos h]
  · intro h
    unfold inlineSubmit
    rw [if_pos h]
  · intro hinv
    constructor
    · intro c hc t ht
      unfold modalSubmit at hc
      by_cases hguard : jsTrim nameValue = "" ∨ jsTrim taskValue = ""
      · rw [if_pos hguard] at hc
        exact hinv c hc t ht
      · rw [if_neg hguard] at hc
        push_neg at hguard
        unfold addCategory at hc
        simp only [List.mem_append, List.mem_singleton] at hc
        rcases hc with hc | rfl
        · exact hinv c hc t ht
        · have hne : (jsTrim taskValue != "") = true := by
            simp [hguard.2]
          simp only [hne, if_true] at ht
          simp only [List.mem_singleton] at ht
          subst ht
          exact hguard.2
    · intro c hc t ht
      unfold inlineSubmit at hc
      by_cases hguard : jsTrim textValue = ""
      · rw [if_pos hguard] at hc
        exact hinv c hc t ht
      · rw [if_neg hguard] at hc
        unfold addTask at hc
        by_cases hany : s.categories.any (fun c => c.id == cid) = true
        · rw [if_pos hany] at hc
          simp only at hc
          rcases mem_updateFirst hc with hcm | ⟨y, hy, rfl⟩
          · exact hinv c hcm t ht
          · simp only [List.mem_append, List.mem_singleton] at ht
            rcases ht with ht | rfl
            · exact hinv y hy t ht
            · exact hguard
        · rw [if_neg hany] at hc
          exact hinv c hc t ht

/-- Witness for the amended C3: whitespace-only inputs are rejected without
any persistence on the demonstration document. -/
theorem validation_amended_witness :
    modalSubmit "  " "x" "" 3 cleanDemoDoc =
      { state := cleanDemoDoc, saves := 0, notifies := 0 } ∧
    inlineSubmit "c1" "  " "" 3 cleanDemoDoc =
      { state := cleanDemoDoc, saves := 0, notifies := 0 } :=
  ⟨(validation_amended "  " "x" "" "c1" "  " 3 cleanDemoDoc).1 (Or.inl (by decide)),
   (validation_amended "  " "x" "" "c1" "  " 3 cleanDemoDoc).2.1 (by decide)⟩

-- Claims C1 and C10.

/-- Stability of the stable sort: elements picked out by a predicate on
which the order relation is indifferent keep exactly their original
relative order. -/
theorem insertionSort_filter_stable (r : α → α → Prop) [DecidableRel r]
    (l : List α) (p : α → Bool)
    (hp : ∀ a b, p a = true → p b = true → r a b) :
    (List.insertionSort r l).filter p = l.filter p := by
  have hpair : List.Pairwise r (l.filter p) :=
    List.pairwise_of_forall_mem_list fun a ha b hb =>
      hp a b (List.mem_filter.mp ha).2 (List.mem_filter.mp hb).2
  have hsub : (l.filter p).Sublist (List.insertionSort r l) :=
    List.sublist_insertionSort hpair (List.filter_sublist l)
  have hsub2 : ((l.filter p).filter p).Sublist ((List.insertionSort r l).filter p) :=
    hsub.filter p
  have hff : (l.filter p).filter p = l.filter p := by
    rw [List.filter_filter]
    simp [Bool.and_self]
  rw [hff] at hsub2
  have hlen : ((List.insertionSort r l).filter p).length = (l.filter p).length :=
    ((List.perm_insertionSort r l).filter p).length_eq
  exact (hsub2.eq_of_length hlen.symm).symm

theorem taskLe_of_effDate_eq (newOrder : SortOrder) (today : String) {a b : Task}
    (h : effDate today a = effDate today b) : taskLe newOrder today a b := by
  unfold taskLe sortCmp
  simp [h]

/-- C1: on a document containing the addressed category, sortCategoryTasks
flips the previous direction of that category (descending being the default
prior state, so a never-sorted category is sorted ascending first), replaces
its task sequence with the stable sort by effective date (dueDate, or today
for dateless tasks) under lexicographic comparison in that direction with
ties keeping their original relative order, and records the new direction in
lastSortOrder, all with one save and one notification. -/
theorem sortCategoryTasks_spec (s : SimpleTasksBlocksSettings) (cid today : String)
    (c : Category) (h : s.categories.find? (fun c => c.id == cid) = some c) :
    ∃ A B,
      s.categories = A ++ c :: B ∧
      (sortCategoryTasks cid today s).state.categories = A ++ sortCat today c :: B ∧
      (sortCategoryTasks cid today s).saves = 1 ∧
      (sortCategoryTasks cid today s).notifies = 1 ∧
      (sortCat today c).lastSortOrder = some (flipOrder (c.lastSortOrder.getD .desc)) ∧
      ((sortCat today c).tasks).Perm c.tasks ∧
      List.Pairwise
        (fun a b =>
          match flipOrder (c.lastSortOrder.getD .desc) with
          | SortOrder.asc => effDate today a ≤ effDate today b
          | SortOrder.desc => effDate today b ≤ effDate today a)
        (sortCat today c).tasks ∧
      (∀ d : String, ((sortCat today c).tasks).filter (fun t => effDate today t == d) =
        c.tasks.filter (fun t => effDate today t == d)) := by
  have hany : s.categories.any (fun c => c.id == cid) = true :=
    any_iff_find?_isSome.mpr (by rw [h]; rfl)
  obtain ⟨A, B, hl, _, _, hu⟩ := find?_decomp h
  refine ⟨A, B, hl, ?_, ?_, ?_, rfl, ?_, ?_, ?_⟩
  · show (if (s.categories.any fun c => c.id == cid) = true then _ else _ : OpResult).state.categories = _
    rw [if_pos hany]
    exact hu (sortCat today)
  · show (if (s.categories.any fun c => c.id == cid) = true then _ else _ : OpResult).saves = 1
    rw [if_pos hany]
  · show (if (s.categories.any fun c => c.id == cid) = true then _ else _ : OpResult).notifies = 1
    rw [if_pos hany]
  · exact List.perm_insertionSort _ c.tasks
  · have hs := List.sorted_insertionSort
      (taskLe (flipOrder (c.lastSortOrder.getD .desc)) today) c.tasks
    exact List.Pairwise.imp
      (fun hab => (taskLe_iff (flipOrder (c.lastSortOrder.getD .desc)) today _ _).mp hab) hs
  · intro d
    apply insertionSort_filter_stable
    intro a b ha hb
    exact taskLe_of_effDate_eq _ today ((beq_iff_eq.mp ha).trans (beq_iff_eq.mp hb).symm)

/-- Witness for C1: the demonstration category (never sorted, so the first
sort is ascending) inside the demonstration document. -/
theorem sortCategoryTasks_spec_witness :
    ∃ A B,
      cleanDemoDoc.categories = A ++ demoCatA :: B ∧
      (sortCategoryTasks "c1" "2024-01-02" cleanDemoDoc).state.categories =
        A ++ sortCat "2024-01-02" demoCatA :: B ∧
      (sortCategoryTasks "c1" "2024-01-02" cleanDemoDoc).saves = 1 ∧
      (sortCategoryTasks "c1" "2024-01-02" cleanDemoDoc).notifies = 1 ∧
      (sortCat "2024-01-02" demoCatA).lastSortOrder =
        some (flipOrder (demoCatA.lastSortOrder.getD .desc)) ∧
      ((sortCat "2024-01-02" demoCatA).tasks).Perm demoCatA.tasks ∧
      List.Pairwise
        (fun a b =>
          match flipOrder (demoCatA.lastSortOrder.getD .desc) with
          | SortOrder.asc => effDate "2024-01-02" a ≤ effDate "2024-01-02" b
          | SortOrder.desc => effDate "2024-01-02" b ≤ effDate "2024-01-02" a)
        (sortCat "2024-01-02" demoCatA).tasks ∧
      (∀ d : String,
        ((sortCat "2024-01-02" demoCatA).tasks).filter (fun t => effDate "2024-01-02" t == d) =
          demoCatA.tasks.filter (fun t => effDate "2024-01-02" t == d)) :=
  sortCategoryTasks_spec cleanDemoDoc "c1" "2024-01-02" demoCatA (by decide)

/-- C10: sortCategoryTasks on an existing category id touches only that
category, and inside it only the task ordering and the lastSortOrder field:
the surrounding categories and their order are untouched (by id sequence
and literally, through the A and B segments), the sorted category keeps its
id, name, collapse flag and color, its new task sequence is a permutation
of the old one (so every task keeps its id, text, completed flag and
dueDate, and dateless tasks stay dateless), and the global settings are
unchanged. -/
theorem sortCategoryTasks_frame (s : SimpleTasksBlocksSettings) (cid today : String)
    (c : Category) (h : s.categories.find? (fun c => c.id == cid) = some c) :
    ∃ A B,
      s.categories = A ++ c :: B ∧
      (sortCategoryTasks cid today s).state.categories = A ++ sortCat today c :: B ∧
      (sortCat today c).id = c.id ∧
      (sortCat today c).name = c.name ∧
      (sortCat today c).isCollapsed = c.isCollapsed ∧
      (sortCat today c).color = c.color ∧
      ((sortCat today c).tasks).Perm c.tasks ∧
      (sortCategoryTasks cid today s).state.confirmTaskDeletion = s.confirmTaskDeletion ∧
      (sortCategoryTasks cid today s).state.dateFormat = s.dateFormat ∧
      (sortCategoryTasks cid today s).state.categories.map Category.id =
        s.categories.map Category.id := by
  have hany : s.categories.any (fun c => c.id == cid) = true :=
    any_iff_find?_isSome.mpr (by rw [h]; rfl)
  obtain ⟨A, B, hl, _, _, hu⟩ := find?_decomp h
  refine ⟨A, B, hl, ?_, rfl, rfl, rfl, rfl, ?_, ?_, ?_, ?_⟩
  · show (if (s.categories.any fun c => c.id == cid) = true then _ else _ : OpResult).state.categories = _
    rw [if_pos hany]
    exact hu (sortCat today)
  · exact List.perm_insertionSort _ c.tasks
  · show (if (s.categories.any fun c => c.id == cid) = true then _ else _ : OpResult).state.confirmTaskDeletion = _
    rw [if_pos hany]
  · show (if (s.categories.any fun c => c.id == cid) = true then _ else _ : OpResult).state.dateFormat = _
    rw [if_pos hany]
  · show (if (s.categories.any fun c => c.id == cid) = true then _ else _ : OpResult).state.categories.map _ = _
    rw [if_pos hany]
    show (updateFirst (fun c => c.id == cid) (sortCat today) s.categories).map Category.id =
      s.categories.map Category.id
    exact @map_updateFirst Category String (fun c => c.id == cid) (sortCat today)
      Category.id (fun x => rfl) s.categories

/-- Witness for C10 on the demonstration document. -/
theorem sortCategoryTasks_frame_witness :
    ∃ A B,
      cleanDemoDoc.categories = A ++ demoCatA :: B ∧
      (sortCategoryTasks "c1" "2024-01-02" cleanDemoDoc).state.categories =
        A ++ sortCat "2024-01-02" demoCatA :: B ∧
      (sortCat "2024-01-02" demoCatA).id = demoCatA.id ∧
      (sortCat "2024-01-02" demoCatA).name = demoCatA.name ∧
      (sortCat "2024-01-02" demoCatA).isCollapsed = demoCatA.isCollapsed ∧
      (sortCat "2024-01-02" demoCatA).color = demoCatA.color ∧
      ((sortCat "2024-01-02" demoCatA).tasks).Perm demoCatA.tasks ∧
      (sortCategoryTasks "c1" "2024-01-02" cleanDemoDoc).state.confirmTaskDeletion =
        cleanDemoDoc.confirmTaskDeletion ∧
      (sortCategoryTasks "c1" "2024-01-02" cleanDemoDoc).state.dateFormat =
        cleanDemoDoc.dateFormat ∧
      (sortCategoryTasks "c1" "2024-01-02" cleanDemoDoc).state.categories.map Category.id =
        cleanDemoDoc.categories.map Category.id :=
  sortCategoryTasks_frame cleanDemoDoc "c1" "2024-01-02" demoCatA (by decide)

-- Claim C9.

/-- Category identifiers of a document, in order. -/
def catIds (s : SimpleTasksBlocksSettings) : List String := s.categories.map Category.id

/-- Task identifiers of one category, in order. -/
def taskIdsOf (c : Category) : List String := c.tasks.map Task.id

/-- Task identifiers of the whole document, in order. -/
def allTaskIds (s : SimpleTasksBlocksSettings) : List String :=
  (s.categories.map taskIdsOf).flatten

/-- Identifier uniqueness invariant of the data model: no two categories
share an id and no two tasks anywhere share an id. -/
def uniqueIds (s : SimpleTasksBlocksSettings) : Prop :=
  (catIds s).Nodup ∧ (allTaskIds s).Nodup

theorem subperm_nodup {l' l : List α} (h : l'.Subperm l) (hn : l.Nodup) :
    l'.Nodup := by
  obtain ⟨m, hm, hs⟩ := h
  exact hm.nodup_iff.mp (hn.sublist hs)

theorem subperm_append {a₁ a₂ b₁ b₂ : List α}
    (h1 : a₁.Subperm a₂) (h2 : b₁.Subperm b₂) : (a₁ ++ b₁).Subperm (a₂ ++ b₂) := by
  obtain ⟨m1, hm1, hs1⟩ := h1
  obtain ⟨m2, hm2, hs2⟩ := h2
  exact ⟨m1 ++ m2, hm1.append hm2, hs1.append hs2⟩

theorem flatten_map_updateFirst_subperm {g : α → List β} {p : α → Bool} {f : α → α}
    (hsub : ∀ c, (g (f c)).Subperm (g c)) (l : List α) :
    ((updateFirst p f l).map g).flatten.Subperm ((l.map g).flatten) := by
  induction l with
  | nil => exact List.Subperm.refl _
  | cons x xs ih =>
    by_cases hx : p x
    · simp only [updateFirst, hx, if_true, List.map_cons, List.flatten_cons]
      exact subperm_append (hsub x) (List.Subperm.refl _)
    · have hx' : p x = false := by
        cases hh : p x
        · rfl
        · exact absurd hh hx
      simp only [updateFirst, hx', Bool.false_eq_true, if_false, List.map_cons,
        List.flatten_cons]
      exact subperm_append (List.Subperm.refl _) ih

theorem flatten_map_updateFirst_snoc {g : α → List β} {p : α → Bool} {f : α → α}
    (a : β) (hsnoc : ∀ c, g (f c) = g c ++ [a]) :
    ∀ (l : List α), l.any p = true →
      ((updateFirst p f l).map g).flatten.Perm (a :: (l.map g).flatten) := by
  intro l
  induction l with
  | nil => intro hex; cases hex
  | cons x xs ih =>
    intro hex
    by_cases hx : p x
    · simp only [updateFirst, hx, if_true, List.map_cons, List.flatten_cons, hsnoc x]
      rw [List.append_assoc]
      exact List.perm_middle
    · have hx' : p x = false := by
        cases hh : p x
        · rfl
        · exact absurd hh hx
      have hex' : xs.any p = true := by
        simp only [List.any_cons, hx', Bool.false_or] at hex
        exact hex
      simp only [updateFirst, hx', Bool.false_eq_true, if_false, List.map_cons,
        List.flatten_cons]
      exact ((ih hex').append_left (g x)).trans List.perm_middle

theorem listMove_oob (l : List α) (f t : Nat) (hf : l.length ≤ f) :
    listMove l f t = l := by
  unfold listMove
  rw [List.get?_eq_none.mpr hf]

/-- Master preservation lemma for store mutations that replace the first
matching category by an id-preserving update whose task id sequence is a
sub-permutation of the old one. -/
theorem uniqueIds_update {s : SimpleTasksBlocksSettings} (h : uniqueIds s)
    (p : Category → Bool) (f : Category → Category)
    (hid : ∀ c, (f c).id = c.id)
    (hsub : ∀ c, (taskIdsOf (f c)).Subperm (taskIdsOf c)) :
    uniqueIds { s with categories := updateFirst p f s.categories } := by
  constructor
  · show ((updateFirst p f s.categories).map Category.id).Nodup
    rw [@map_updateFirst Category String p f Category.id hid s.categories]
    exact h.1
  · exact subperm_nodup (flatten_map_updateFirst_subperm hsub s.categories) h.2

theorem catIds_addCategory (name ft : String) (dd : Option String) (now : Nat)
    (s : SimpleTasksBlocksSettings) :
    catIds (addCategory name ft dd now s).state = catIds s ++ [genId now] := by
  unfold addCategory catIds
  by_cases hft : (ft != "") = true <;> simp [hft]

theorem allTaskIds_addCategory (name ft : String) (dd : Option String) (now : Nat)
    (s : SimpleTasksBlocksSettings) :
    allTaskIds (addCategory name ft dd now s).state =
      allTaskIds s ++ (if ft != "" then [genId now ++ "-task"] else []) := by
  unfold addCategory allTaskIds taskIdsOf
  by_cases hft : (ft != "") = true <;> simp [hft]

theorem uniqueIds_addCategory (name ft : String) (dd : Option String) (now : Nat)
    {s : SimpleTasksBlocksSettings} (h : uniqueIds s)
    (hc : genId now ∉ catIds s)
    (ht : ft ≠ "" → genId now ++ "-task" ∉ allTaskIds s) :
    uniqueIds (addCategory name ft dd now s).state := by
  constructor
  · rw [catIds_addCategory]
    rw [List.nodup_append]
    refine ⟨h.1, List.nodup_singleton _, ?_⟩
    intro a ha hb
    rw [List.mem_singleton] at hb
    subst hb
    exact hc ha
  · rw [allTaskIds_addCategory]
    by_cases hft : ft = ""
    · simp [hft]
      exact h.2
    · have hft' : (ft != "") = true := by simp [hft]
      rw [if_pos hft', List.nodup_append]
      refine ⟨h.2, List.nodup_singleton _, ?_⟩
      intro a ha hb
      rw [List.mem_singleton] at hb
      subst hb
      exact ht hft ha

theorem uniqueIds_deleteCategory (cid : String) {s : SimpleTasksBlocksSettings}
    (h : uniqueIds s) : uniqueIds (deleteCategory cid s).state := by
  constructor
  · show ((s.categories.filter fun c => c.id != cid).map Category.id).Nodup
    exact h.1.sublist (List.Sublist.map Category.id (List.filter_sublist _))
  · show (((s.categories.filter fun c => c.id != cid).map taskIdsOf).flatten).Nodup
    exact h.2.sublist
      (flatten_sublist_of_sublist (List.Sublist.map taskIdsOf (List.filter_sublist _)))

theorem uniqueIds_addTask (cid text : String) (dd : Option String) (now : Nat)
    {s : SimpleTasksBlocksSettings} (h : uniqueIds s)
    (ht : genId now ∉ allTaskIds s) :
    uniqueIds (addTask cid text dd now s).state := by
  by_cases hany : (s.categories.any fun c => c.id == cid) = true
  · unfold addTask
    rw [if_pos hany]
    constructor
    · show ((updateFirst (fun c => c.id == cid)
        (fun c => { c with tasks := c.tasks ++
          [{ id := genId now, text := text, completed := false, dueDate := dd }] })
        s.categories).map Category.id).Nodup
      rw [@map_updateFirst Category String (fun c => c.id == cid)
        (fun c => { c with tasks := c.tasks ++
          [{ id := genId now, text := text, completed := false, dueDate := dd }] })
        Category.id (fun c => rfl) s.categories]
      exact h.1
    · have hperm := @flatten_map_updateFirst_snoc Category String taskIdsOf
        (fun c => c.id == cid)
        (fun c => { c with tasks := c.tasks ++
          [{ id := genId now, text := text, completed := false, dueDate := dd }] })
        (genId now) (fun c => by simp [taskIdsOf]) s.categories hany
      exact hperm.nodup_iff.mpr (List.nodup_cons.mpr ⟨ht, h.2⟩)
  · unfold addTask
    rw [if_neg hany]
    exact h

theorem toggleTask_eq_of_find?_some {s : SimpleTasksBlocksSettings} {cid : String}
    {c : Category} (hf : s.categories.find? (fun c => c.id == cid) = some c)
    (tid : String) (done : Bool) :
    toggleTask cid tid done s =
      if (c.tasks.any fun t => t.id == tid) = true then
        { state := { s with categories := updateFirst (fun c => c.id == cid) (fun c => { c with tasks := updateFirst (fun t => t.id == tid) (fun t => { t with completed := done }) c.tasks }) s.categories }, saves := 1, notifies := 1 }
      else { state := s, saves := 0, notifies := 0 } := by
  unfold toggleTask
  rw [hf]

theorem uniqueIds_toggleTask (cid tid : String) (done : Bool)
    {s : SimpleTasksBlocksSettings} (h : uniqueIds s) :
    uniqueIds (toggleTask cid tid done s).state := by
  cases hf : s.categories.find? (fun c => c.id == cid) with
  | none =>
    have hred : toggleTask cid tid done s = { state := s, saves := 0, notifies := 0 } := by
      unfold toggleTask
      rw [hf]
    rw [hred]
    exact h
  | some c =>
    rw [toggleTask_eq_of_find?_some hf tid done]
    by_cases hta : (c.tasks.any fun t => t.id == tid) = true
    · rw [if_pos hta]
      apply uniqueIds_update h
      · intro c0
        rfl
      · intro c0
        show ((updateFirst (fun t => t.id == tid)
          (fun t => { t with completed := done }) c0.tasks).map Task.id).Subperm
            (taskIdsOf c0)
        rw [@map_updateFirst Task String (fun t => t.id == tid)
          (fun t => { t with completed := done }) Task.id (fun t => rfl) c0.tasks]
        exact List.Subperm.refl _
    · rw [if_neg hta]
      exact h

theorem uniqueIds_deleteTask (cid tid : String) {s : SimpleTasksBlocksSettings}
    (h : uniqueIds s) : uniqueIds (deleteTask cid tid s).state := by
  unfold deleteTask
  by_cases hany : (s.categories.any fun c => c.id == cid) = true
  · rw [if_pos hany]
    apply uniqueIds_update h
    · intro c0
      rfl
    · intro c0
      exact (List.Sublist.map Task.id (List.filter_sublist _)).subperm
  · rw [if_neg hany]
    exact h

theorem uniqueIds_sortCategoryTasks (cid today : String)
    {s : SimpleTasksBlocksSettings} (h : uniqueIds s) :
    uniqueIds (sortCategoryTasks cid today s).state := by
  unfold sortCategoryTasks
  by_cases hany : (s.categories.any fun c => c.id == cid) = true
  · rw [if_pos hany]
    apply uniqueIds_update h
    · intro c0
      rfl
    · intro c0
      exact ((List.perm_insertionSort _ c0.tasks).map Task.id).subperm
  · rw [if_neg hany]
    exact h

theorem uniqueIds_reorderCategories (f t : Nat) {s : SimpleTasksBlocksSettings}
    (h : uniqueIds s) : uniqueIds (reorderCategories f t s).state := by
  by_cases hf : f < s.categories.length
  · have hperm := listMove_perm s.categories f t hf
    constructor
    · show ((listMove s.categories f t).map Category.id).Nodup
      exact ((hperm.map Category.id).nodup_iff).mpr h.1
    · show (((listMove s.categories f t).map taskIdsOf).flatten).Nodup
      exact (((hperm.map taskIdsOf).flatten).nodup_iff).mpr h.2
  · show uniqueIds { s with categories := listMove s.categories f t }
    rw [listMove_oob s.categories f t (le_of_not_lt hf)]
    exact h

theorem uniqueIds_toggleAllCategories {s : SimpleTasksBlocksSettings}
    (h : uniqueIds s) : uniqueIds (toggleAllCategories s).state := by
  constructor
  · show ((s.categories.map _).map Category.id).Nodup
    rw [List.map_map]
    exact h.1
  · show (((s.categories.map _).map taskIdsOf).flatten).Nodup
    rw [List.map_map]
    exact h.2

theorem uniqueIds_cleanCompletedTasks {s : SimpleTasksBlocksSettings}
    (h : uniqueIds s) : uniqueIds (cleanCompletedTasks s).state := by
  constructor
  · show ((s.categories.map _).map Category.id).Nodup
    rw [List.map_map]
    exact h.1
  · show (((s.categories.map _).map taskIdsOf).flatten).Nodup
    rw [List.map_map]
    refine h.2.sublist (flatten_sublist_of_forall₂ ?_)
    rw [List.forall₂_map_right_iff, List.forall₂_map_left_iff, List.forall₂_same]
    intro c _
    exact List.Sublist.map Task.id (List.filter_sublist _)

/-- One store mutation as the view layer can fire it: one of the nine named
store methods with arbitrary arguments; the reorder indices are the
in-bounds values the drag handlers produce, and the clock value `now` of a
creating operation is arbitrary (the source reads `Date.now()`). -/
inductive Step : SimpleTasksBlocksSettings → SimpleTasksBlocksSettings → Prop where
  | addCat (name ft : String) (dd : Option String) (now : Nat)
      (s : SimpleTasksBlocksSettings) : Step s (addCategory name ft dd now s).state
  | delCat (cid : String) (s : SimpleTasksBlocksSettings) :
      Step s (deleteCategory cid s).state
  | addTsk (cid text : String) (dd : Option String) (now : Nat)
      (s : SimpleTasksBlocksSettings) : Step s (addTask cid text dd now s).state
  | togTsk (cid tid : String) (done : Bool) (s : SimpleTasksBlocksSettings) :
      Step s (toggleTask cid tid done s).state
  | delTsk (cid tid : String) (s : SimpleTasksBlocksSettings) :
      Step s (deleteTask cid tid s).state
  | sortTsk (cid today : String) (s : SimpleTasksBlocksSettings) :
      Step s (sortCategoryTasks cid today s).state
  | reorder (f t : Nat) (s : SimpleTasksBlocksSettings) :
      f < s.categories.length → t < s.categories.length →
      Step s (reorderCategories f t s).state
  | togAll (s : SimpleTasksBlocksSettings) : Step s (toggleAllCategories s).state
  | clean (s : SimpleTasksBlocksSettings) : Step s (cleanCompletedTasks s).state

/-- Document states reachable from the default document by store
operations, with arbitrary clock values. -/
inductive Reachable : SimpleTasksBlocksSettings → Prop where
  | init : Reachable DEFAULT_SETTINGS
  | step {s s' : SimpleTasksBlocksSettings} :
      Reachable s → Step s s' → Reachable s'

/-- One store mutation under the freshness discipline the id scheme needs:
every creating operation runs at a clock instant whose generated identifier
strings are not already present in the document. -/
inductive StepFresh : SimpleTasksBlocksSettings → SimpleTasksBlocksSettings → Prop where
  | addCat (name ft : String) (dd : Option String) (now : Nat)
      (s : SimpleTasksBlocksSettings) :
      genId now ∉ catIds s → (ft ≠ "" → genId now ++ "-task" ∉ allTaskIds s) →
      StepFresh s (addCategory name ft dd now s).state
  | delCat (cid : String) (s : SimpleTasksBlocksSettings) :
      StepFresh s (deleteCategory cid s).state
  | addTsk (cid text : String) (dd : Option String) (now : Nat)
      (s : SimpleTasksBlocksSettings) :
      genId now ∉ allTaskIds s → StepFresh s (addTask cid text dd now s).state
  | togTsk (cid tid : String) (done : Bool) (s : SimpleTasksBlocksSettings) :
      StepFresh s (toggleTask cid tid done s).state
  | delTsk (cid tid : String) (s : SimpleTasksBlocksSettings) :
      StepFresh s (deleteTask cid tid s).state
  | sortTsk (cid today : String) (s : SimpleTasksBlocksSettings) :
      StepFresh s (sortCategoryTasks cid today s).state
  | reorder (f t : Nat) (s : SimpleTasksBlocksSettings) :
      f < s.categories.length → t < s.categories.length →
      StepFresh s (reorderCategories f t s).state
  | togAll (s : SimpleTasksBlocksSettings) : StepFresh s (toggleAllCategories s).state
  | clean (s : SimpleTasksBlocksSettings) : StepFresh s (cleanCompletedTasks s).state

/-- Document states reachable from the default document when every creation
gets fresh identifiers. -/
inductive ReachableFresh : SimpleTasksBlocksSettings → Prop where
  | init : ReachableFresh DEFAULT_SETTINGS
  | step {s s' : SimpleTasksBlocksSettings} :
      ReachableFresh s → StepFresh s s' → ReachableFresh s'

/-- Reachable document holding two categories created at the same clock
value 5, and therefore with colliding ids. -/
def dupIdState : SimpleTasksBlocksSettings :=
  (addCategory "B" "" none 5 (addCategory "A" "" none 5 DEFAULT_SETTINGS).state).state

/-- C9 counterexample: identifiers come from the wall clock
(`Date.now().toString()`), so two createCategory calls within the same
millisecond (clock value 5 here) produce a reachable document in which two
distinct categories share the id "5"; uniqueness does not hold at all
times. -/
theorem unique_ids_cex : Reachable dupIdState ∧ ¬ (catIds dupIdState).Nodup := by
  constructor
  · exact Reachable.step
      (Reachable.step Reachable.init (Step.addCat "A" "" none 5 DEFAULT_SETTINGS))
      (Step.addCat "B" "" none 5 (addCategory "A" "" none 5 DEFAULT_SETTINGS).state)
  · decide

/-- C9 as amended: category and task identifiers are unique in every
document state reachable from the empty default document by store
operations, provided each creating operation runs at a clock instant whose
generated identifier strings (the timestamp, and the timestamp plus the
"-task" suffix for the optional first task) are not already present in the
document; the wall-clock scheme itself does not guarantee this premise when
two creations share a millisecond (see the counterexample). -/
theorem unique_ids_amended {s : SimpleTasksBlocksSettings} (h : ReachableFresh s) :
    (catIds s).Nodup ∧ (allTaskIds s).Nodup := by
  induction h with
  | init => exact ⟨List.nodup_nil, List.nodup_nil⟩
  | step _ hstep ih =>
    cases hstep with
    | addCat name ft dd now s hc ht => exact uniqueIds_addCategory name ft dd now ih hc ht
    | delCat cid s => exact uniqueIds_deleteCategory cid ih
    | addTsk cid text dd now s ht => exact uniqueIds_addTask cid text dd now ih ht
    | togTsk cid tid done s => exact uniqueIds_toggleTask cid tid done ih
    | delTsk cid tid s => exact uniqueIds_deleteTask cid tid ih
    | sortTsk cid today s => exact uniqueIds_sortCategoryTasks cid today ih
    | reorder f t s hf htl => exact uniqueIds_reorderCategories f t ih
    | togAll s => exact uniqueIds_toggleAllCategories ih
    | clean s => exact uniqueIds_cleanCompletedTasks ih

/-- Concrete fresh creation chain: a category (with first task) at clock 5,
then a task at clock 6. -/
def freshState1 : SimpleTasksBlocksSettings :=
  (addCategory "A" "x" (some "2024-01-01") 5 DEFAULT_SETTINGS).state

/-- Second state of the fresh chain. -/
def freshState2 : SimpleTasksBlocksSettings :=
  (addTask "5" "y" none 6 freshState1).state

/-- Witness for the amended C9 on the concrete fresh two-step chain. -/
theorem unique_ids_amended_witness :
    (catIds freshState2).Nodup ∧ (allTaskIds freshState2).Nodup :=
  unique_ids_amended
    (ReachableFresh.step
      (ReachableFresh.step ReachableFresh.init
        (StepFresh.addCat "A" "x" (some "2024-01-01") 5 DEFAULT_SETTINGS
          (by decide) (fun _ => by decide)))
      (StepFresh.addTsk "5" "y" none 6 freshState1 (by decide)))

end STB
